import Mathlib

/-!
Verification of the aifand hierarchical process engine against its design
specification.  The Python sources under `src/aifand/` are shallowly
embedded: pure data (devices, states, buffers) become Lean structures and
lists, the permission matrix becomes an explicit ordered rule list, and the
stateful operations (buffer store/prune, the System tick, the FastRunner
loop) become explicit state-passing functions.  Where the runtime class of
an object is what the code branches on (`isinstance` checks), the class is
embedded as a finite kind together with the subtyping relation of the
Python class hierarchy.
-/

namespace Aifand

/-! ## Device and process class hierarchy (device.py, process.py)

The permission matrix only inspects the runtime class of the process and of
the device, via `isinstance`.  The class hierarchy of the repository is:
`Device` with subclasses `Sensor` and `Actuator`; `Process` with subclasses
`Environment` and `Controller` (and further subclasses such as
`FixedSpeedController`, which are instances of `Controller`).  We embed the
runtime class as a finite kind and `isinstance` as a decidable relation. -/

/-- Runtime class of a device: `Sensor`, `Actuator`, or the plain `Device`
base class. -/
inductive DeviceKind : Type
| sensor
| actuator
| plainDevice
deriving DecidableEq

/-- Runtime class of a process, as far as `isinstance` checks in the
permission matrix can distinguish them: an `Environment` subclass, a
`Controller` subclass, or any other `Process` subclass. -/
inductive ProcessKind : Type
| environment
| controller
| plainProcess
deriving DecidableEq

/-- Class tags that appear as the device column of `DEVICE_PERMISSIONS`. -/
inductive DeviceClassTag : Type
| sensorClass
| actuatorClass
| deviceClass
deriving DecidableEq

/-- Class tags that appear as the process column of `DEVICE_PERMISSIONS`. -/
inductive ProcessClassTag : Type
| environmentClass
| controllerClass
| processClass
deriving DecidableEq

/-- Python `isinstance(device, tag)` for the embedded device hierarchy:
every device is an instance of `Device`; `Sensor` and `Actuator` instances
are exactly the values built from those subclasses. -/
def deviceIsInstance (k : DeviceKind) (t : DeviceClassTag) : Bool :=
  match t with
  | .deviceClass => true
  | .sensorClass => k = DeviceKind.sensor
  | .actuatorClass => k = DeviceKind.actuator

/-- Python `isinstance(process, tag)` for the embedded process hierarchy:
every process is an instance of `Process`; `Environment` and `Controller`
instances are the values built from those subclasses. -/
def processIsInstance (k : ProcessKind) (t : ProcessClassTag) : Bool :=
  match t with
  | .processClass => true
  | .environmentClass => k = ProcessKind.environment
  | .controllerClass => k = ProcessKind.controller

/-! ## Permission matrix (permissions.py) -/

/-- Embeds `DEVICE_PERMISSIONS` as populated by `register_permissions` in
`permissions.py`: the ordered rule list
`[((Environment, Sensor), True), ((Environment, Actuator), False),
((Controller, Actuator), True), ((Controller, Sensor), False),
((Process, Device), True)]`, most specific first. -/
def DEVICE_PERMISSIONS :
    List ((ProcessClassTag × DeviceClassTag) × Bool) :=
  [((.environmentClass, .sensorClass), true),
   ((.environmentClass, .actuatorClass), false),
   ((.controllerClass, .actuatorClass), true),
   ((.controllerClass, .sensorClass), false),
   ((.processClass, .deviceClass), true)]

/-- Embeds the scanning loop of `can_process_modify_device`: walk the rule
list in order and return the outcome of the first rule whose process class
and device class both match by `isinstance`; with no matching rule the
default is deny (`False`). -/
def firstMatch (p : ProcessKind) (d : DeviceKind) :
    List ((ProcessClassTag × DeviceClassTag) × Bool) → Option Bool
  | [] => none
  | ((pc, dc), allowed) :: rest =>
    if processIsInstance p pc && deviceIsInstance d dc then some allowed
    else firstMatch p d rest

/-- Embeds `can_process_modify_device(process, device)` from
`permissions.py` (the matrix is already registered): first matching rule of
`DEVICE_PERMISSIONS` wins, default deny. -/
def can_process_modify_device (p : ProcessKind) (d : DeviceKind) : Bool :=
  (firstMatch p d DEVICE_PERMISSIONS).getD false

/-! ## Devices and states (device.py, state.py) -/

/-- Embeds a `Device` value: its human-readable `name`, its runtime class,
and the opaque property map (property values are opaque payloads, embedded
here as integers; no claim inspects them). -/
structure DeviceV : Type where
  name : String
  kind : DeviceKind
  properties : List (String × Int)
deriving DecidableEq

/-- Error raised by `State.with_device` / `State.with_devices`: a
`PermissionError` carrying the offending process class, device class and
device name (the data interpolated into the message string). -/
structure PermissionErr : Type where
  processKind : ProcessKind
  deviceKind : DeviceKind
  deviceName : String
deriving DecidableEq

/-- Python dict write `d[k] = v` on an insertion-ordered dictionary,
embedded on association lists: replace the value at an existing key in
place, otherwise append the new pair at the end. -/
def dictSet (l : List (String × DeviceV)) (k : String) (v : DeviceV) :
    List (String × DeviceV) :=
  match l with
  | [] => [(k, v)]
  | (k', v') :: rest =>
    if k' = k then (k, v) :: rest else (k', v') :: dictSet rest k v

/-- Python dict read `d.get(k)` on the association-list embedding. -/
def dictGet (l : List (String × DeviceV)) (k : String) : Option DeviceV :=
  match l with
  | [] => none
  | (k', v') :: rest => if k' = k then some v' else dictGet rest k

/-- Python `dict.update(m)`: apply every write of `m` in order. -/
def dictUpdate (l m : List (String × DeviceV)) : List (String × DeviceV) :=
  m.foldl (fun acc kv => dictSet acc kv.1 kv.2) l

/-- Embeds a `State`: the frozen name-to-device mapping. -/
structure StateV : Type where
  devices : List (String × DeviceV)
deriving DecidableEq

/-- Embeds `State.get_device(name)`. -/
def StateV.get_device (s : StateV) (name : String) : Option DeviceV :=
  dictGet s.devices name

/-- Embeds `State.with_device(device)` from `state.py`.  The call-stack
walk `_find_calling_process` is embedded as the parameter `caller`: the
innermost `Process`-typed receiver found on the active call chain, or
`none` when no such frame exists.  When a process is found and
`can_process_modify_device` denies the pair, a `PermissionError` is
raised; otherwise a new state is built from a copy of the device dict with
the device written at its name. -/
def StateV.with_device (caller : Option ProcessKind) (s : StateV)
    (d : DeviceV) : Except PermissionErr StateV :=
  match caller with
  | some p =>
    if can_process_modify_device p d.kind then
      .ok ⟨dictSet s.devices d.name d⟩
    else
      .error ⟨p, d.kind, d.name⟩
  | none => .ok ⟨dictSet s.devices d.name d⟩

/-- Embeds the checking loop of `State.with_devices`: walk the values of
the argument dict in order and raise at the first denied device. -/
def checkAllDevices (p : ProcessKind) :
    List DeviceV → Except PermissionErr Unit
  | [] => .ok ()
  | d :: rest =>
    if can_process_modify_device p d.kind then checkAllDevices p rest
    else .error ⟨p, d.kind, d.name⟩

/-- Embeds `State.with_devices(devices)` from `state.py`: check every
device of the argument first (raising on the first denial, before any new
state is built), then return a new state whose dict is a copy of the old
one updated with all the argument's writes. -/
def StateV.with_devices (caller : Option ProcessKind) (s : StateV)
    (m : List (String × DeviceV)) : Except PermissionErr StateV :=
  match caller with
  | some p =>
    match checkAllDevices p (m.map Prod.snd) with
    | .error e => .error e
    | .ok _ => .ok ⟨dictUpdate s.devices m⟩
  | none => .ok ⟨dictUpdate s.devices m⟩

example :
    StateV.with_device (some .controller) ⟨[]⟩
      ⟨"temp", .sensor, []⟩ =
    .error ⟨.controller, .sensor, "temp"⟩ := rfl

example :
    StateV.with_device none ⟨[]⟩ ⟨"temp", .sensor, []⟩ =
    .ok ⟨[("temp", ⟨"temp", .sensor, []⟩)]⟩ := rfl

/-! ## Dictionary lemmas used by the state theorems -/

theorem dictGet_dictSet_same (l : List (String × DeviceV)) (k : String)
    (v : DeviceV) : dictGet (dictSet l k v) k = some v := by
  induction l with
  | nil => simp [dictSet, dictGet]
  | cons hd tl ih =>
    obtain ⟨k', v'⟩ := hd
    by_cases h : k' = k
    · simp [dictSet, dictGet, h]
    · simp [dictSet, dictGet, h, ih]

theorem dictGet_dictSet_other (l : List (String × DeviceV))
    (k n : String) (v : DeviceV) (hne : n ≠ k) :
    dictGet (dictSet l k v) n = dictGet l n := by
  induction l with
  | nil =>
    simp only [dictSet, dictGet]
    rw [if_neg (fun h => hne h.symm)]
  | cons hd tl ih =>
    obtain ⟨k', v'⟩ := hd
    by_cases h : k' = k
    · subst h
      simp only [dictSet, dictGet, if_pos rfl]
      rw [if_neg (fun h => hne h.symm), if_neg (fun h => hne h.symm)]
    · by_cases h2 : k' = n
      · subst h2
        simp [dictSet, dictGet, h]
      · simp [dictSet, dictGet, h, h2, ih]

/-! ## Claim C4 -/

/-- C4: for every process and device, `can_process_modify_device` equals
the outcome of the first rule of the ordered matrix matching both classes
by subtyping, with default deny when no rule matches; in particular it is
allow for (Environment, Sensor), deny for (Environment, Actuator), allow
for (Controller, Actuator), deny for (Controller, Sensor), and allow for
any other Process class with any Device. -/
theorem can_process_modify_device_matrix :
    (∀ p d, can_process_modify_device p d =
      (firstMatch p d DEVICE_PERMISSIONS).getD false) ∧
    can_process_modify_device .environment .sensor = true ∧
    can_process_modify_device .environment .actuator = false ∧
    can_process_modify_device .controller .actuator = true ∧
    can_process_modify_device .controller .sensor = false ∧
    (∀ d, can_process_modify_device .plainProcess d = true) := by
  exact ⟨fun p d => rfl, rfl, rfl, rfl, rfl, fun d => by cases d <;> rfl⟩

/-! ## Claim C5 -/

/-- C5: `with_device` raises permission-denied exactly when the innermost
process found on the call chain is denied for the device's class; with no
process on the chain it always succeeds; on success the result holds the
new device at its name and every other device unchanged; and
`with_devices` raises (producing no partial state, as the error carries no
state) whenever any device of its argument is denied. -/
theorem with_device_enforcement :
    (∀ (caller : Option ProcessKind) (s : StateV) (d : DeviceV),
      (∃ e, StateV.with_device caller s d = .error e) ↔
        ∃ p, caller = some p ∧
          can_process_modify_device p d.kind = false) ∧
    (∀ (s : StateV) (d : DeviceV),
      ∃ s2, StateV.with_device none s d = .ok s2) ∧
    (∀ (caller : Option ProcessKind) (s : StateV) (d : DeviceV)
      (s2 : StateV), StateV.with_device caller s d = .ok s2 →
        s2.get_device d.name = some d ∧
        ∀ n, n ≠ d.name → s2.get_device n = s.get_device n) ∧
    (∀ (p : ProcessKind) (s : StateV) (m : List (String × DeviceV))
      (d : DeviceV), d ∈ m.map Prod.snd →
        can_process_modify_device p d.kind = false →
        ∃ e, StateV.with_devices (some p) s m = .error e) := by
  refine ⟨?_, ?_, ?_, ?_⟩
  · intro caller s d
    constructor
    · rintro ⟨e, he⟩
      match caller, he with
      | some p, he =>
        refine ⟨p, rfl, ?_⟩
        by_cases hc : can_process_modify_device p d.kind = true
        · simp [StateV.with_device, hc] at he
        · simpa using hc
    · rintro ⟨p, rfl, hdeny⟩
      exact ⟨⟨p, d.kind, d.name⟩, by simp [StateV.with_device, hdeny]⟩
  · intro s d
    exact ⟨⟨dictSet s.devices d.name d⟩, rfl⟩
  · intro caller s d s2 hok
    have hs2 : s2 = ⟨dictSet s.devices d.name d⟩ := by
      match caller, hok with
      | some p, hok =>
        by_cases hc : can_process_modify_device p d.kind = true
        · exact ((by simpa [StateV.with_device, hc] using hok :
            (⟨dictSet s.devices d.name d⟩ : StateV) = s2)).symm
        · simp [StateV.with_device, hc] at hok
      | none, hok =>
        exact ((by simpa [StateV.with_device] using hok :
          (⟨dictSet s.devices d.name d⟩ : StateV) = s2)).symm
    subst hs2
    exact ⟨dictGet_dictSet_same s.devices d.name d,
      fun n hn => dictGet_dictSet_other s.devices d.name n d hn⟩
  · intro p s m d hmem hdeny
    have herr : ∃ e, checkAllDevices p (m.map Prod.snd) = .error e := by
      induction m with
      | nil => simp at hmem
      | cons hd tl ih =>
        rw [List.map_cons] at hmem
        rcases List.mem_cons.mp hmem with h | h
        · have hk : can_process_modify_device p hd.2.kind = false := by
            rw [← h]; exact hdeny
          refine ⟨⟨p, hd.2.kind, hd.2.name⟩, ?_⟩
          simp [checkAllDevices, hk]
        · by_cases hc : can_process_modify_device p hd.2.kind = true
          · rcases ih h with ⟨e, he⟩
            exact ⟨e, by simp [checkAllDevices, hc, he]⟩
          · exact ⟨⟨p, hd.2.kind, hd.2.name⟩, by
              simp [checkAllDevices, hc]⟩
    rcases herr with ⟨e, he⟩
    exact ⟨e, by simp [StateV.with_devices, he]⟩

/-- Witness for C5: the success clause of `with_device_enforcement`
applied to a controller writing an actuator into the empty state. -/
theorem with_device_enforcement_witness :
    StateV.get_device ⟨[("fan", ⟨"fan", .actuator, []⟩)]⟩ "fan" =
      some ⟨"fan", .actuator, []⟩ :=
  (with_device_enforcement.2.2.1 (some .controller) ⟨[]⟩
    ⟨"fan", .actuator, []⟩ ⟨[("fan", ⟨"fan", .actuator, []⟩)]⟩ rfl).1

/-! ## Buffer (buffer.py)

Buffer entries are `(timestamp, states)` pairs kept in a plain list.  The
stored bundle is a snapshot copy; its contents are never inspected by the
buffer, so the payload type is a parameter. -/

/-- Embeds `Buffer.store(timestamp, states)`: scan for the first existing
entry whose timestamp is strictly greater than the new one and insert
there, else append at the end (so an entry with an equal timestamp is
inserted after the existing ones). -/
def Buffer.store {β : Type} (t : Int) (b : β) :
    List (Int × β) → List (Int × β)
  | [] => [(t, b)]
  | (t0, x) :: rest =>
    if t < t0 then (t, b) :: (t0, x) :: rest
    else (t0, x) :: Buffer.store t b rest

/-- Embeds `Buffer.prune_before(timestamp)`: keep the list from the first
entry whose timestamp is at least the cutoff (the source finds that index
and slices; on the chronologically ordered list this drops the strictly
older head entries). -/
def Buffer.prune_before {β : Type} (t : Int) :
    List (Int × β) → List (Int × β)
  | [] => []
  | (t0, x) :: rest =>
    if t0 ≥ t then (t0, x) :: rest else Buffer.prune_before t rest

/-- Embeds `Buffer.clear()`. -/
def Buffer.clear {β : Type} (_ : List (Int × β)) : List (Int × β) := []

/-- Embeds `Buffer.count()`. -/
def Buffer.countEntries {β : Type} (l : List (Int × β)) : Nat := l.length

/-- Embeds `Buffer.get_oldest()`. -/
def Buffer.get_oldest {β : Type} (l : List (Int × β)) : Option (Int × β) :=
  l.head?

/-- Embeds `Buffer.get_latest()`. -/
def Buffer.get_latest {β : Type} (l : List (Int × β)) : Option (Int × β) :=
  l.getLast?

/-- Mutating operations a client can apply to a `Buffer` (the query
operations do not change the entry list). -/
inductive BufferOp (β : Type) : Type
| store (t : Int) (b : β)
| pruneBefore (t : Int)
| clear

/-- Applies one buffer operation to the entry list. -/
def Buffer.applyOp {β : Type} (l : List (Int × β)) :
    BufferOp β → List (Int × β)
  | .store t b => Buffer.store t b l
  | .pruneBefore t => Buffer.prune_before t l
  | .clear => Buffer.clear l

/-- Runs a sequence of buffer operations starting from the empty buffer of
a fresh `Buffer()`. -/
def Buffer.runOps {β : Type} (ops : List (BufferOp β)) : List (Int × β) :=
  ops.foldl Buffer.applyOp []

/-- Chronological order of the entry list: adjacent (hence all) timestamps
are non-decreasing. -/
def Chronological {β : Type} (l : List (Int × β)) : Prop :=
  l.Pairwise (fun a b => a.1 ≤ b.1)

theorem mem_store {β : Type} {t : Int} {b : β} {l : List (Int × β)}
    {z : Int × β} (hz : z ∈ Buffer.store t b l) : z ∈ l ∨ z = (t, b) := by
  induction l with
  | nil =>
    simp only [Buffer.store, List.mem_singleton] at hz
    exact Or.inr hz
  | cons hd tl ih =>
    obtain ⟨t1, y⟩ := hd
    by_cases h2 : t < t1
    · simp only [Buffer.store, if_pos h2] at hz
      rcases List.mem_cons.mp hz with rfl | hz3
      · exact Or.inr rfl
      · exact Or.inl hz3
    · simp only [Buffer.store, if_neg h2] at hz
      rcases List.mem_cons.mp hz with rfl | hz3
      · exact Or.inl (List.mem_cons_self _ _)
      · rcases ih hz3 with h4 | h4
        · exact Or.inl (List.mem_cons_of_mem _ h4)
        · exact Or.inr h4

theorem store_preserves_chronological {β : Type} (t : Int) (b : β)
    (l : List (Int × β)) (h : Chronological l) :
    Chronological (Buffer.store t b l) := by
  induction l with
  | nil => simp [Buffer.store, Chronological]
  | cons hd tl ih =>
    obtain ⟨t0, x⟩ := hd
    rcases (List.pairwise_cons.mp h) with ⟨hall, htl⟩
    by_cases hlt : t < t0
    · simp only [Buffer.store, if_pos hlt]
      refine List.pairwise_cons.mpr ⟨?_, h⟩
      intro z hz
      rcases List.mem_cons.mp hz with rfl | hz2
      · exact le_of_lt hlt
      · exact le_trans (le_of_lt hlt) (hall z hz2)
    · have hle : t0 ≤ t := le_of_not_lt hlt
      simp only [Buffer.store, if_neg hlt]
      refine List.pairwise_cons.mpr ⟨?_, ih htl⟩
      intro z hz
      rcases mem_store hz with h4 | h4
      · exact hall z h4
      · subst h4
        exact hle

theorem prune_preserves_chronological {β : Type} (t : Int)
    (l : List (Int × β)) (h : Chronological l) :
    Chronological (Buffer.prune_before t l) := by
  induction l with
  | nil => simpa [Buffer.prune_before] using h
  | cons hd tl ih =>
    obtain ⟨t0, x⟩ := hd
    rcases (List.pairwise_cons.mp h) with ⟨_, htl⟩
    by_cases hge : t0 ≥ t
    · simpa [Buffer.prune_before, hge] using h
    · simp only [Buffer.prune_before, if_neg hge]
      exact ih htl

/-! ## Claim C7 -/

/-- C7: after any sequence of `store`, `prune_before` and `clear`
operations (with arbitrary, possibly out-of-order or duplicate,
timestamps) applied to a fresh buffer, the entry list is sorted
non-decreasing by timestamp, and each single `store` on a chronological
list inserts at an order-preserving position. -/
theorem buffer_always_chronological {β : Type} :
    (∀ ops : List (BufferOp β), Chronological (Buffer.runOps ops)) ∧
    (∀ (t : Int) (b : β) (l : List (Int × β)), Chronological l →
      Chronological (Buffer.store t b l)) := by
  constructor
  · intro ops
    have key : ∀ (l : List (Int × β)), Chronological l →
        Chronological (ops.foldl Buffer.applyOp l) := by
      induction ops with
      | nil => intro l hl; simpa using hl
      | cons op rest ih =>
        intro l hl
        simp only [List.foldl_cons]
        refine ih _ ?_
        cases op with
        | store t b => exact store_preserves_chronological t b l hl
        | pruneBefore t => exact prune_preserves_chronological t l hl
        | clear => simp [Buffer.applyOp, Buffer.clear, Chronological]
    exact key [] (by simp [Chronological])
  · exact fun t b l hl => store_preserves_chronological t b l hl

/-- Witness for C7: the second clause of `buffer_always_chronological`
evaluated on a concrete out-of-order store. -/
theorem buffer_always_chronological_witness :
    Chronological (Buffer.store 2 (0 : Int) [(1, 0), (3, 0)]) :=
  (buffer_always_chronological (β := Int)).2 2 0 [(1, 0), (3, 0)]
    (by simp [Chronological])

/-! ## StatefulProcess (stateful.py) -/

/-- Configuration fields of `StatefulProcess`: `buffer_size_limit`
(pydantic `ge=1`), `auto_prune_enabled`, and `max_age_ns` (pydantic
`ge=0`). -/
structure StatefulConfig : Type where
  buffer_size_limit : Nat
  auto_prune_enabled : Bool
  max_age_ns : Int

theorem length_prune_before_le {β : Type} (t : Int)
    (l : List (Int × β)) :
    (Buffer.prune_before t l).length ≤ l.length := by
  induction l with
  | nil => simp [Buffer.prune_before]
  | cons hd tl ih =>
    obtain ⟨t0, x⟩ := hd
    by_cases hge : t0 ≥ t
    · simp [Buffer.prune_before, hge]
    · simp only [Buffer.prune_before, if_neg hge]
      exact le_trans ih (by simp)

theorem prune_before_cons_of_lt {β : Type} {t t0 : Int} {x : β}
    {rest : List (Int × β)} (h : t0 < t) :
    Buffer.prune_before t ((t0, x) :: rest) =
      Buffer.prune_before t rest := by
  simp [Buffer.prune_before, not_le.mpr h]

/-- Embeds the size half of `StatefulProcess._auto_prune`: while the entry
count exceeds `buffer_size_limit`, remove the entries up to and including
the oldest one via `prune_before(oldest_timestamp + 1)`. -/
def sizePruneLoop {β : Type} (limit : Nat) (l : List (Int × β)) :
    List (Int × β) :=
  if h : limit < l.length then
    match l with
    | (t0, x) :: rest =>
      sizePruneLoop limit (Buffer.prune_before (t0 + 1) ((t0, x) :: rest))
  else l
termination_by l.length
decreasing_by
  rw [prune_before_cons_of_lt (by omega)]
  exact lt_of_le_of_lt (length_prune_before_le _ _) (by simp)

/-- Embeds `StatefulProcess._auto_prune` at time `now`: prune by age only
when `max_age_ns > 0` (dropping entries with timestamp before
`now - max_age_ns`), then prune by size down to `buffer_size_limit`. -/
def auto_prune {β : Type} (cfg : StatefulConfig) (now : Int)
    (l : List (Int × β)) : List (Int × β) :=
  let aged := if 0 < cfg.max_age_ns then
    Buffer.prune_before (now - cfg.max_age_ns) l
  else l
  sizePruneLoop cfg.buffer_size_limit aged

/-- Embeds `StatefulProcess._import_state(states)`: store the bundle at
the current time, then auto-prune when enabled.  The two `get_time()`
calls of the source (one for the stored timestamp, one for the age
cutoff) are the parameters `tStore` and `tPrune`. -/
def import_state {β : Type} (cfg : StatefulConfig)
    (tStore tPrune : Int) (b : β) (l : List (Int × β)) :
    List (Int × β) :=
  let stored := Buffer.store tStore b l
  if cfg.auto_prune_enabled then auto_prune cfg tPrune stored else stored

theorem sizePruneLoop_length_le {β : Type} (limit : Nat) :
    ∀ (n : Nat) (l : List (Int × β)), l.length ≤ n →
      (sizePruneLoop limit l).length ≤ limit := by
  intro n
  induction n with
  | zero =>
    intro l hl
    have : l = [] := List.length_eq_zero.mp (Nat.le_zero.mp hl)
    subst this
    rw [sizePruneLoop]
    simp
  | succ n ih =>
    intro l hl
    rw [sizePruneLoop]
    by_cases h : limit < l.length
    · rw [dif_pos h]
      match l, h with
      | (t0, x) :: rest, h =>
        refine ih _ ?_
        rw [prune_before_cons_of_lt (by omega)]
        have hr : rest.length ≤ n := by
          simp only [List.length_cons] at hl
          omega
        exact le_trans (length_prune_before_le _ _) hr
    · rw [dif_neg h]
      omega

theorem prune_before_suffix {β : Type} (t : Int) (l : List (Int × β)) :
    (Buffer.prune_before t l).IsSuffix l := by
  induction l with
  | nil => simp [Buffer.prune_before]
  | cons hd tl ih =>
    obtain ⟨t0, x⟩ := hd
    by_cases hge : t0 ≥ t
    · simp [Buffer.prune_before, hge]
    · simp only [Buffer.prune_before, if_neg hge]
      exact ih.trans (List.suffix_cons _ _)

theorem sizePruneLoop_suffix {β : Type} (limit : Nat) :
    ∀ (n : Nat) (l : List (Int × β)), l.length ≤ n →
      (sizePruneLoop limit l).IsSuffix l := by
  intro n
  induction n with
  | zero =>
    intro l hl
    have : l = [] := List.length_eq_zero.mp (Nat.le_zero.mp hl)
    subst this
    rw [sizePruneLoop]
    simp
  | succ n ih =>
    intro l hl
    rw [sizePruneLoop]
    by_cases h : limit < l.length
    · rw [dif_pos h]
      match l, h with
      | (t0, x) :: rest, h =>
        have hsub : (Buffer.prune_before (t0 + 1)
            ((t0, x) :: rest)).IsSuffix ((t0, x) :: rest) :=
          prune_before_suffix _ _
        refine (ih _ ?_).trans hsub
        rw [prune_before_cons_of_lt (by omega)]
        have hr : rest.length ≤ n := by
          simp only [List.length_cons] at hl
          omega
        exact le_trans (length_prune_before_le _ _) hr
    · rw [dif_neg h]

theorem prune_before_age {β : Type} (c : Int) (l : List (Int × β))
    (h : Chronological l) :
    ∀ e ∈ Buffer.prune_before c l, c ≤ e.1 := by
  induction l with
  | nil => simp [Buffer.prune_before]
  | cons hd tl ih =>
    obtain ⟨t0, x⟩ := hd
    rcases List.pairwise_cons.mp h with ⟨hall, htl⟩
    by_cases hge : t0 ≥ c
    · intro e he
      simp only [Buffer.prune_before, if_pos hge] at he
      rcases List.mem_cons.mp he with rfl | he2
      · exact hge
      · exact le_trans hge (hall e he2)
    · intro e he
      simp only [Buffer.prune_before, if_neg hge] at he
      exact ih htl e he

/-! ## Claim C8 -/

/-- C8 (amended): with auto-prune enabled, immediately after
`_import_state` returns the buffer holds at most `buffer_size_limit`
entries; when `max_age_ns > 0` no stored entry is older than
`now() - max_age_ns`; and pruning by size only drops oldest entries (the
surviving entries are a suffix of the chronological list).  The original
claim's age bound for `max_age_ns = 0` fails: the source prunes by age
only under `if self.max_age_ns > 0`. -/
theorem import_state_prune_bounds {β : Type} (cfg : StatefulConfig)
    (tStore tPrune : Int) (b : β) (l : List (Int × β))
    (hc : Chronological l) (hen : cfg.auto_prune_enabled = true) :
    (import_state cfg tStore tPrune b l).length ≤
      cfg.buffer_size_limit ∧
    (0 < cfg.max_age_ns →
      ∀ e ∈ import_state cfg tStore tPrune b l,
        tPrune - cfg.max_age_ns ≤ e.1) ∧
    (∀ m : List (Int × β),
      (sizePruneLoop cfg.buffer_size_limit m).IsSuffix m) := by
  have hrw : import_state cfg tStore tPrune b l =
      auto_prune cfg tPrune (Buffer.store tStore b l) := by
    simp [import_state, hen]
  refine ⟨?_, ?_, fun m => sizePruneLoop_suffix _ m.length m (le_refl _)⟩
  · rw [hrw]
    exact sizePruneLoop_length_le _ _ _ (le_refl _)
  · intro hage e he
    rw [hrw] at he
    simp only [auto_prune, if_pos hage] at he
    have hsub := (sizePruneLoop_suffix cfg.buffer_size_limit
      (Buffer.prune_before (tPrune - cfg.max_age_ns)
        (Buffer.store tStore b l)).length _ (le_refl _)).subset he
    exact prune_before_age _ _
      (store_preserves_chronological tStore b l hc) e hsub

/-- Witness for C8: `import_state_prune_bounds` applied to a concrete
buffer of two entries with limit 2 and a positive maximum age. -/
theorem import_state_prune_bounds_witness :
    (import_state ⟨2, true, 4⟩ 10 10 (0 : Int)
      [((5 : Int), (0 : Int)), (7, 0)]).length ≤ 2 :=
  (import_state_prune_bounds ⟨2, true, 4⟩ 10 10 0 [(5, 0), (7, 0)]
    (by norm_num [Chronological]) rfl).1

/-- Counterexample for C8 as stated: with `max_age_ns = 0` (allowed by
the field's `ge=0` bound) age pruning is skipped entirely, so after
an ingest at time 10 the entry stored at time 5 survives although its
timestamp is older than `now() - max_age_ns = 10`. -/
theorem import_state_age_counterexample :
    (5, (0 : Int)) ∈
      import_state ⟨3, true, 0⟩ 10 10 (0 : Int) [(5, 0)] ∧
    (5 : Int) < 10 - 0 := by
  constructor
  · simp [import_state, auto_prune, Buffer.store, sizePruneLoop]
  · norm_num

/-! ## Pipeline children loop (process.py, `execute`)

The serial children loop of `Process.execute` threads the bundle through
the children: each child's output becomes the next child's input, a
`PermissionError` from a child re-raises out of the whole tick, and any
other exception is logged and the loop continues with the bundle as it
was before that child ran.  A child is embedded as a function from the
bundle it receives to the outcome of its `execute` call; the bundle type
is a parameter (its contents are never inspected by the loop). -/

/-- Outcome of one child `execute` call as seen by the parent loop. -/
inductive ChildOut (σ : Type) : Type
| ok (out : σ)
| permissionDenied
| failed

/-- Embeds `copy.deepcopy` at the value level: the deep copy of a bundle
is an equal value (sharing is invisible to a value-level semantics; the
heap-level consequences are treated separately for claim C10). -/
def deepcopy {σ : Type} (s : σ) : σ := s

/-- Embeds the children loop of `Process.execute` (the pipeline case),
instrumented with the list of bundles passed to each invoked child, in
invocation order: on `ok` the loop continues with the child's output, on
`PermissionError` it re-raises immediately, on any other exception it
continues with the current bundle unchanged. -/
def runChildren {σ : Type} :
    List (σ → ChildOut σ) → σ → List σ × Except Unit σ
  | [], cur => ([], .ok cur)
  | c :: rest, cur =>
    match c cur with
    | .ok out =>
      let r := runChildren rest out
      (cur :: r.1, r.2)
    | .permissionDenied => ([cur], .error ())
    | .failed =>
      let r := runChildren rest cur
      (cur :: r.1, r.2)

/-- Embeds `Process.execute` for a process with children: deep-copy the
input, then run the children loop on the copy. -/
def executePipeline {σ : Type} (children : List (σ → ChildOut σ))
    (states : σ) : List σ × Except Unit σ :=
  runChildren children (deepcopy states)

/-! ## Claim C2 -/

/-- C2: in a pipeline `[A, B, C]` where `A` returns `a` on the input, the
bundle passed to `C` is `B(A(input))` and the pipeline returns
`C(B(A(input)))` when all succeed; when `B` fails with a non-permission
exception, `C` receives `A(input)` and execution continues; when `B`
raises permission-denied, `C` is never invoked (the trace stops at `B`)
and the error propagates out of the tick. -/
theorem pipeline_threading {σ : Type} (cA cB cC : σ → ChildOut σ)
    (input a b c : σ) (hA : cA input = .ok a) :
    (cB a = .ok b → cC b = .ok c →
      executePipeline [cA, cB, cC] input = ([input, a, b], .ok c)) ∧
    (cB a = .failed → cC a = .ok c →
      executePipeline [cA, cB, cC] input = ([input, a, a], .ok c)) ∧
    (cB a = .permissionDenied →
      executePipeline [cA, cB, cC] input = ([input, a], .error ())) := by
  refine ⟨?_, ?_, ?_⟩
  · intro hB hC
    simp [executePipeline, deepcopy, runChildren, hA, hB, hC]
  · intro hB hC
    simp [executePipeline, deepcopy, runChildren, hA, hB, hC]
  · intro hB
    simp [executePipeline, deepcopy, runChildren, hA, hB]

/-- Witness for C2: the all-success clause of `pipeline_threading` on
three concrete numeric children. -/
theorem pipeline_threading_witness :
    executePipeline [fun n => ChildOut.ok (n + 1),
      fun n => ChildOut.ok (n * 2), fun n => ChildOut.ok (n + 7)]
      (0 : Nat) = ([0, 1, 2], .ok 9) :=
  (pipeline_threading (fun n => ChildOut.ok (n + 1))
    (fun n => ChildOut.ok (n * 2)) (fun n => ChildOut.ok (n + 7))
    0 1 2 9 rfl).1 rfl rfl

/-! ## Execute template and three-phase pattern

The `Process` base class that the rest of the package is written against
(the one with the `execute` template incrementing `execution_count`, the
default `_execute` running the three-method pattern, `get_time`,
`get_next_execution_time` and `initialize_timing`) is referenced
throughout `system.py`, `stateful.py`, `runner.py`, `fixed.py` and the
test suite but is not itself among the sources; the `process.py` present
is an older variant whose `execute` does not touch the counter and which
lacks those methods.  The missing template is therefore modelled from the
spec below. -/

/-- Modelled from the spec: the missing `Process.execute` template
method.  Per the spec, `execute(input_bundle)` delegates to
`do_execute(input)` and on successful return increments
`execution_count`; on exception the counter is unchanged and the
exception propagates to the caller.  The mutable field is passed
explicitly: the result pairs the new counter with the outcome. -/
def Process.execute {σ ε : Type} (do_execute : σ → Except ε σ)
    (execution_count : Nat) (input : σ) : Nat × Except ε σ :=
  match do_execute input with
  | .ok out => (execution_count + 1, .ok out)
  | .error e => (execution_count, .error e)

/-- Runs a sequence of ticks of the same process, threading
`execution_count` through `Process.execute`. -/
def Process.runTicks {σ ε : Type} (do_execute : σ → Except ε σ)
    (execution_count : Nat) : List σ → Nat
  | [] => execution_count
  | i :: rest =>
    Process.runTicks do_execute
      (Process.execute do_execute execution_count i).1 rest

/-! ## Claim C1 -/

/-- C1: a normally returning `execute` leaves `execution_count` exactly
one greater and returns `do_execute`'s output; an `execute` whose
transformation raises leaves the counter unchanged and propagates the
same exception; hence over any sequence of ticks the counter adds up to
exactly the number of successful ones. -/
theorem execute_counts_successful_ticks {σ ε : Type}
    (do_execute : σ → Except ε σ) (count : Nat) (input : σ) :
    (∀ out, do_execute input = .ok out →
      Process.execute do_execute count input = (count + 1, .ok out)) ∧
    (∀ e, do_execute input = .error e →
      Process.execute do_execute count input = (count, .error e)) ∧
    (∀ inputs : List σ,
      Process.runTicks do_execute count inputs =
        count + (inputs.filter fun i => (do_execute i).isOk).length) := by
  refine ⟨?_, ?_, ?_⟩
  · intro out hok
    simp [Process.execute, hok]
  · intro e herr
    simp [Process.execute, herr]
  · intro inputs
    induction inputs generalizing count with
    | nil => simp [Process.runTicks]
    | cons i rest ih =>
      cases hdo : do_execute i with
      | ok out =>
        simp [Process.runTicks, Process.execute, hdo, List.filter, ih,
          Except.isOk, Except.toBool]
        omega
      | error e =>
        simp [Process.runTicks, Process.execute, hdo, List.filter, ih,
          Except.isOk, Except.toBool]

/-- Witness for C1: the success and failure clauses of
`execute_counts_successful_ticks` evaluated on a process that fails on
odd inputs, starting from counter 5. -/
theorem execute_counts_successful_ticks_witness :
    Process.execute
      (fun n : Nat => if n % 2 = 0 then .ok n else .error ()) 5 4 =
      (6, .ok 4) ∧
    Process.execute
      (fun n : Nat => if n % 2 = 0 then .ok n else .error ()) 5 3 =
      (5, .error ()) :=
  ⟨(execute_counts_successful_ticks
      (fun n : Nat => if n % 2 = 0 then .ok n else .error ()) 5 4).1 4
      rfl,
   (execute_counts_successful_ticks
      (fun n : Nat => if n % 2 = 0 then .ok n else .error ()) 5 3).2.1 ()
      rfl⟩

/-! ## Claim C6 -/

/-- Embeds the `States` bundle: the free-form role-name to `State`
dictionary passed between processes. -/
def StatesB : Type := List (String × StateV)

/-- Embeds the empty bundle `States()`. -/
def emptyStates : StatesB := []

/-- Modelled from the spec: the missing default `do_execute`, which runs
the three-phase pattern — `import_state(input)`, then `think()`, then
`export_state()` — the phases communicating through the process's
internal state (the order of the phases is the data flow: `think`
receives the post-import state, `export_state` the post-think state).
Returns the final internal state and the tick's output bundle. -/
def do_execute_default {σ β : Type} (import_state : σ → β → σ)
    (think : σ → σ) (export_state : σ → β) (s : σ) (input : β) :
    σ × β :=
  let s1 := import_state s input
  let s2 := think s1
  (s2, export_state s2)

/-- Modelled from the spec: the default `import_state` does nothing. -/
def import_state_default {σ : Type} (s : σ) (_ : StatesB) : σ := s

/-- Modelled from the spec: the default `think` does nothing. -/
def think_default {σ : Type} (s : σ) : σ := s

/-- Modelled from the spec: the default `export_state` returns an empty
bundle. -/
def export_state_default {σ : Type} (_ : σ) : StatesB := emptyStates

/-- C6: for a process not overriding `do_execute`, a tick applies
`import_state` to the input, `think` to the imported state, and returns
exactly `export_state`'s value as the output bundle (shown both for the
bare pattern and through the `execute` template); with the default
phases the output is the empty bundle and the internal state is
untouched. -/
theorem default_do_execute_three_phase {σ β : Type}
    (import_state : σ → β → σ) (think : σ → σ) (export_state : σ → β)
    (s : σ) (input : β) (count : Nat) :
    do_execute_default import_state think export_state s input =
      (think (import_state s input),
        export_state (think (import_state s input))) ∧
    Process.execute
      (fun i =>
        .ok (ε := Unit)
          (do_execute_default import_state think export_state s i).2)
      count input =
      (count + 1,
        .ok (export_state (think (import_state s input)))) ∧
    (∀ (s0 : σ) (b : StatesB),
      do_execute_default import_state_default think_default
        export_state_default s0 b = (s0, emptyStates)) :=
  ⟨rfl, rfl, fun _ _ => rfl⟩

/-! ## System (system.py)

A `System` holds a priority queue `process_heap` of `(next_time, child)`
pairs.  The `heapq` priority queue is embedded by its contract as a list
kept sorted ascending by key; push inserts at the sorted position and pop
removes the head.  A child is embedded with the fields the tick reads and
writes: its identity, the timing fields behind
`get_next_execution_time()`, and the outcome of its `execute` call on
each tick (indexed by its `execution_count`). -/

/-- Outcome of a child `execute` call inside a System tick. -/
inductive COut : Type
| ok
| permissionDenied
| failed

/-- Embeds a child process of a System: identity, the timing fields, and
the outcome its transformation produces on each tick. -/
structure SChild : Type where
  id : Nat
  start_time : Int
  execution_count : Nat
  interval_ns : Int
  behavior : Nat → COut

/-- Modelled from the spec: the missing default
`Process.get_next_execution_time`, `start_time + execution_count *
interval_ns` (`system.py` reads it but the defining `Process` variant is
not among the sources). -/
def SChild.get_next_execution_time (c : SChild) : Int :=
  c.start_time + c.execution_count * c.interval_ns

/-- Modelled from the spec: a child `execute` call through the missing
template method — on success the child's `execution_count` increments,
on an exception it is unchanged and the exception is seen by the caller
(the System's try/except). -/
def SChild.executeChild (c : SChild) (_bundle : StatesB) : SChild × COut :=
  match c.behavior c.execution_count with
  | .ok => ({ c with execution_count := c.execution_count + 1 }, .ok)
  | .permissionDenied => (c, .permissionDenied)
  | .failed => (c, .failed)

/-- Embeds `heapq.heappush` on the sorted-list view of the priority
queue: insert keyed by time, after existing equal keys. -/
def heapPush (l : List (Int × SChild)) (t : Int) (x : SChild) :
    List (Int × SChild) :=
  match l with
  | [] => [(t, x)]
  | (t0, y) :: rest =>
    if t < t0 then (t, x) :: (t0, y) :: rest
    else (t0, y) :: heapPush rest t x

theorem heapPush_perm (l : List (Int × SChild)) (t : Int) (x : SChild) :
    (heapPush l t x).Perm ((t, x) :: l) := by
  induction l with
  | nil => simp [heapPush]
  | cons hd tl ih =>
    obtain ⟨t0, y⟩ := hd
    by_cases hlt : t < t0
    · simp [heapPush, hlt]
    · simp only [heapPush, if_neg hlt]
      exact (ih.cons _).trans (List.Perm.swap _ _ _)

/-- Number of stale heap entries: entries whose stored key differs from
the child's current `get_next_execution_time()`. -/
def heapStale (l : List (Int × SChild)) : Nat :=
  l.countP fun e => decide (e.2.get_next_execution_time ≠ e.1)

/-- Termination measure for the ready-scan loop: every iteration either
pops an entry or repairs one stale key. -/
def heapMeasure (l : List (Int × SChild)) : Nat :=
  l.length + heapStale l

theorem heapStale_push_fresh (rest : List (Int × SChild)) (x : SChild) :
    heapStale (heapPush rest x.get_next_execution_time x) =
      heapStale rest := by
  have hp := heapPush_perm rest x.get_next_execution_time x
  unfold heapStale
  rw [hp.countP_eq]
  simp [List.countP_cons]

theorem heapMeasure_rest_lt (rest : List (Int × SChild)) (nt : Int)
    (p : SChild) : heapMeasure rest < heapMeasure ((nt, p) :: rest) := by
  simp only [heapMeasure, heapStale, List.length_cons, List.countP_cons]
  split <;> omega

theorem heapMeasure_push_lt (rest : List (Int × SChild)) (nt : Int)
    (p : SChild) (hne : p.get_next_execution_time ≠ nt) :
    heapMeasure (heapPush rest p.get_next_execution_time p) <
      heapMeasure ((nt, p) :: rest) := by
  have hlen :=
    (heapPush_perm rest p.get_next_execution_time p).length_eq
  have hst := heapStale_push_fresh rest p
  have hx : decide (p.get_next_execution_time ≠ nt) = true := by
    simpa using hne
  unfold heapMeasure
  rw [hst, hlen]
  simp only [List.length_cons]
  unfold heapStale
  rw [List.countP_cons]
  simp only [hx, if_true]
  omega

/-- Embeds `System._get_ready_children`: scan the heap head; pop a child
whose current next time is due; repair (pop and re-push) a stale
not-yet-due head; stop at a fresh not-yet-due head.  Returns the popped
ready children in pop order and the remaining heap. -/
def get_ready_children (now : Int) (heap : List (Int × SChild)) :
    List SChild × List (Int × SChild) :=
  match heap with
  | [] => ([], [])
  | (nt, p) :: rest =>
    if p.get_next_execution_time ≤ now then
      let r := get_ready_children now rest
      (p :: r.1, r.2)
    else if p.get_next_execution_time ≠ nt then
      get_ready_children now
        (heapPush rest p.get_next_execution_time p)
    else
      ([], (nt, p) :: rest)
termination_by heapMeasure heap
decreasing_by
  · exact heapMeasure_rest_lt _ _ _
  · refine heapMeasure_push_lt _ _ _ ?_
    assumption

/-- Embeds the child-execution loop of `System._execute`: execute each
ready child on a fresh empty bundle (`States()`), re-inserting it with
its freshly computed next execution time on success and on ordinary
failure; a `PermissionError` re-raises immediately (the child is not
re-inserted, the error carries the invocation trace so far).  The trace
records, in order, each invoked child's id and the bundle it was
given. -/
def system_execute_go (input : StatesB) :
    List SChild → List (Int × SChild) → List (Nat × StatesB) →
    Except (List (Nat × StatesB))
      (List (Int × SChild) × StatesB × List (Nat × StatesB))
  | [], heap, trace => .ok (heap, input, trace)
  | c :: rest, heap, trace =>
    match SChild.executeChild c emptyStates with
    | (c2, .ok) =>
      system_execute_go input rest
        (heapPush heap c2.get_next_execution_time c2)
        (trace ++ [(c.id, emptyStates)])
    | (_, .permissionDenied) => .error (trace ++ [(c.id, emptyStates)])
    | (c2, .failed) =>
      system_execute_go input rest
        (heapPush heap c2.get_next_execution_time c2)
        (trace ++ [(c.id, emptyStates)])

/-- Embeds `System._execute(states)`: collect the ready children, run
them, and (when no `PermissionError` is raised) return the input bundle
unchanged together with the updated heap and the invocation trace. -/
def system_execute (heap : List (Int × SChild)) (now : Int)
    (input : StatesB) :
    Except (List (Nat × StatesB))
      (List (Int × SChild) × StatesB × List (Nat × StatesB)) :=
  system_execute_go input (get_ready_children now heap).1
    (get_ready_children now heap).2 []

theorem get_ready_children_perm (now : Int) :
    ∀ (n : Nat) (heap : List (Int × SChild)), heapMeasure heap ≤ n →
      (heap.map Prod.snd).Perm
        ((get_ready_children now heap).1 ++
          (get_ready_children now heap).2.map Prod.snd) := by
  intro n
  induction n with
  | zero =>
    intro heap h
    have hlen : heap.length = 0 :=
      Nat.le_zero.mp (le_trans (Nat.le_add_right _ _) h)
    have : heap = [] := List.length_eq_zero.mp hlen
    subst this
    rw [get_ready_children]
    simp
  | succ n ih =>
    intro heap h
    match heap with
    | [] =>
      rw [get_ready_children]
      simp
    | (nt, p) :: rest =>
      rw [get_ready_children]
      by_cases h1 : p.get_next_execution_time ≤ now
      · rw [if_pos h1]
        have hm : heapMeasure rest ≤ n := by
          have := heapMeasure_rest_lt rest nt p
          omega
        have hrec := ih rest hm
        simpa using hrec.cons p
      · rw [if_neg h1]
        by_cases h2 : p.get_next_execution_time ≠ nt
        · rw [if_pos h2]
          have hm :
              heapMeasure (heapPush rest p.get_next_execution_time p) ≤
                n := by
            have := heapMeasure_push_lt rest nt p h2
            omega
          have hrec := ih _ hm
          have hpp :
              ((heapPush rest p.get_next_execution_time p).map
                Prod.snd).Perm (p :: rest.map Prod.snd) := by
            simpa using
              (heapPush_perm rest p.get_next_execution_time p).map
                Prod.snd
          have hstep :
              ((nt, p) :: rest).map Prod.snd =
                p :: rest.map Prod.snd := by simp
          rw [hstep]
          exact (hpp.symm.trans hrec)
        · rw [if_neg h2]
          simp

theorem executeChild_id (c : SChild) (b : StatesB) :
    (c.executeChild b).1.id = c.id := by
  unfold SChild.executeChild
  cases c.behavior c.execution_count <;> rfl

theorem system_execute_go_ok_spec (input : StatesB) :
    ∀ (ready : List SChild) (heap : List (Int × SChild))
      (trace : List (Nat × StatesB)) (hf : List (Int × SChild))
      (out : StatesB) (trf : List (Nat × StatesB)),
      system_execute_go input ready heap trace = .ok (hf, out, trf) →
      out = input ∧
      trf = trace ++ ready.map (fun c => (c.id, emptyStates)) ∧
      (hf.map Prod.snd).Perm
        (heap.map Prod.snd ++
          ready.map fun c => (c.executeChild emptyStates).1) ∧
      (∀ e ∈ hf, e ∈ heap ∨ e.1 = e.2.get_next_execution_time) := by
  intro ready
  induction ready with
  | nil =>
    intro heap trace hf out trf hok
    simp only [system_execute_go] at hok
    obtain ⟨h1, h2, h3⟩ :
        heap = hf ∧ input = out ∧ trace = trf := by
      have := hok
      simp only [Except.ok.injEq, Prod.mk.injEq] at this
      exact ⟨this.1, this.2.1, this.2.2⟩
    subst h1
    subst h2
    subst h3
    exact ⟨rfl, by simp, by simp, fun e he => Or.inl he⟩
  | cons c rest ih =>
    intro heap trace hf out trf hok
    simp only [system_execute_go] at hok
    rcases hco : SChild.executeChild c emptyStates with ⟨c2, o⟩
    rw [hco] at hok
    cases o with
    | ok =>
      rcases ih _ _ _ _ _ hok with ⟨hout, htr, hperm, hmem⟩
      refine ⟨hout, by simpa using htr, ?_, ?_⟩
      · have hpp :
            ((heapPush heap c2.get_next_execution_time c2).map
              Prod.snd).Perm (c2 :: heap.map Prod.snd) := by
          simpa using
            (heapPush_perm heap c2.get_next_execution_time c2).map
              Prod.snd
        have hupd : (c.executeChild emptyStates).1 = c2 := by
          rw [hco]
        rw [List.map_cons, hupd]
        refine hperm.trans ?_
        refine (hpp.append_right _).trans ?_
        have :
            (c2 :: heap.map Prod.snd) ++
              (rest.map fun x => (x.executeChild emptyStates).1) =
            c2 :: (heap.map Prod.snd ++
              (rest.map fun x => (x.executeChild emptyStates).1)) := by
          simp
        rw [this]
        exact List.perm_middle.symm
      · intro e he
        rcases hmem e he with hin | hfresh
        · have :=
            (heapPush_perm heap c2.get_next_execution_time c2).subset
              hin
          rcases List.mem_cons.mp this with rfl | hin2
          · exact Or.inr rfl
          · exact Or.inl hin2
        · exact Or.inr hfresh
    | permissionDenied => exact absurd hok (by simp)
    | failed =>
      rcases ih _ _ _ _ _ hok with ⟨hout, htr, hperm, hmem⟩
      refine ⟨hout, by simpa using htr, ?_, ?_⟩
      · have hpp :
            ((heapPush heap c2.get_next_execution_time c2).map
              Prod.snd).Perm (c2 :: heap.map Prod.snd) := by
          simpa using
            (heapPush_perm heap c2.get_next_execution_time c2).map
              Prod.snd
        have hupd : (c.executeChild emptyStates).1 = c2 := by
          rw [hco]
        rw [List.map_cons, hupd]
        refine hperm.trans ?_
        refine (hpp.append_right _).trans ?_
        have :
            (c2 :: heap.map Prod.snd) ++
              (rest.map fun x => (x.executeChild emptyStates).1) =
            c2 :: (heap.map Prod.snd ++
              (rest.map fun x => (x.executeChild emptyStates).1)) := by
          simp
        rw [this]
        exact List.perm_middle.symm
      · intro e he
        rcases hmem e he with hin | hfresh
        · have :=
            (heapPush_perm heap c2.get_next_execution_time c2).subset
              hin
          rcases List.mem_cons.mp this with rfl | hin2
          · exact Or.inr rfl
          · exact Or.inl hin2
        · exact Or.inr hfresh

theorem system_execute_go_perm_raises (input : StatesB) :
    ∀ (ready : List SChild) (heap : List (Int × SChild))
      (trace : List (Nat × StatesB)) (c : SChild), c ∈ ready →
      (c.executeChild emptyStates).2 = .permissionDenied →
      ∃ tr, system_execute_go input ready heap trace = .error tr := by
  intro ready
  induction ready with
  | nil =>
    intro heap trace c hc
    exact absurd hc (by simp)
  | cons c0 rest ih =>
    intro heap trace c hc hperm
    simp only [system_execute_go]
    rcases hco : SChild.executeChild c0 emptyStates with ⟨c2, o⟩
    cases o with
    | ok =>
      rcases List.mem_cons.mp hc with rfl | hc2
      · rw [hco] at hperm
        exact absurd hperm (by simp)
      · exact ih _ _ c hc2 hperm
    | permissionDenied => exact ⟨_, rfl⟩
    | failed =>
      rcases List.mem_cons.mp hc with rfl | hc2
      · rw [hco] at hperm
        exact absurd hperm (by simp)
      · exact ih _ _ c hc2 hperm

/-! ## Claim C3 -/

/-- C3: in a System tick, every dispatched child is invoked with the
empty bundle; the dispatch trace lists the ready children once each in
pop order (so, with each child in the queue once, no child is dispatched
twice even if due again after re-insertion); on a tick with no
permission error every dispatched child is back in the queue exactly
once, keyed by its freshly computed next execution time, whether its
execution succeeded or failed; a permission-denied child makes the tick
raise; and the tick's returned bundle is its input unchanged. -/
theorem system_execute_contract (heap : List (Int × SChild)) (now : Int)
    (input : StatesB) :
    (∀ hf out trf,
      system_execute heap now input = .ok (hf, out, trf) →
      out = input ∧
      trf = (get_ready_children now heap).1.map
        (fun c => (c.id, emptyStates)) ∧
      (∀ p ∈ trf, p.2 = emptyStates)) ∧
    ((heap.map fun e => e.2.id).Nodup →
      ((get_ready_children now heap).1.map SChild.id).Nodup) ∧
    (∀ hf out trf,
      system_execute heap now input = .ok (hf, out, trf) →
      (heap.map fun e => e.2.id).Nodup →
      ∀ c ∈ (get_ready_children now heap).1,
        (hf.map fun e => e.2.id).count c.id = 1 ∧
        ∀ e ∈ hf, e.2.id = c.id →
          e.1 = e.2.get_next_execution_time) ∧
    (∀ c ∈ (get_ready_children now heap).1,
      (c.executeChild emptyStates).2 = .permissionDenied →
      ∃ tr, system_execute heap now input = .error tr) := by
  have gp := get_ready_children_perm now (heapMeasure heap) heap
    (le_refl _)
  have hid_split : (heap.map fun e => e.2.id) =
      (heap.map Prod.snd).map SChild.id := by
    simp [List.map_map]
  have gpid : ((heap.map fun e => e.2.id)).Perm
      ((get_ready_children now heap).1.map SChild.id ++
        ((get_ready_children now heap).2.map fun e => e.2.id) ) := by
    rw [hid_split]
    have := gp.map SChild.id
    simpa [List.map_map] using this
  refine ⟨?_, ?_, ?_, ?_⟩
  · intro hf out trf hok
    rcases system_execute_go_ok_spec input _ _ _ _ _ _ hok with
      ⟨hout, htr, _, _⟩
    have htr2 : trf = (get_ready_children now heap).1.map
        (fun c => (c.id, emptyStates)) := by simpa using htr
    refine ⟨hout, htr2, ?_⟩
    intro p hp
    rw [htr2] at hp
    rcases List.mem_map.mp hp with ⟨c, _, rfl⟩
    rfl
  · intro hnd
    have := (gpid.nodup_iff).mp hnd
    exact this.of_append_left
  · intro hf out trf hok hnd c hc
    rcases system_execute_go_ok_spec input _ _ _ _ _ _ hok with
      ⟨_, _, hperm, hmem⟩
    have hready_nodup :
        ((get_ready_children now heap).1.map SChild.id).Nodup :=
      ((gpid.nodup_iff).mp hnd).of_append_left
    have hdisj :
        ((get_ready_children now heap).1.map SChild.id).Disjoint
          ((get_ready_children now heap).2.map fun e => e.2.id) :=
      List.disjoint_of_nodup_append ((gpid.nodup_iff).mp hnd)
    have hcid : c.id ∈
        (get_ready_children now heap).1.map SChild.id :=
      List.mem_map.mpr ⟨c, hc, rfl⟩
    have hnotrest : c.id ∉
        ((get_ready_children now heap).2.map fun e => e.2.id) :=
      fun hmem2 => hdisj hcid hmem2
    have hfid : (hf.map fun e => e.2.id).Perm
        (((get_ready_children now heap).2.map fun e => e.2.id) ++
          (get_ready_children now heap).1.map SChild.id) := by
      have hA := hperm.map SChild.id
      simp only [List.map_append, List.map_map] at hA
      have hcomp1 : (hf.map (SChild.id ∘ Prod.snd)) =
          (hf.map fun e => e.2.id) := by
        simp [Function.comp]
      have hcomp2 :
          ((get_ready_children now heap).2.map (SChild.id ∘ Prod.snd)) =
          ((get_ready_children now heap).2.map fun e => e.2.id) := by
        simp [Function.comp]
      have hcomp3 :
          ((get_ready_children now heap).1.map
            (SChild.id ∘ fun c => (c.executeChild emptyStates).1)) =
          (get_ready_children now heap).1.map SChild.id := by
        refine List.map_congr_left ?_
        intro x _
        simp [Function.comp, executeChild_id]
      rw [hcomp1, hcomp2, hcomp3] at hA
      exact hA
    constructor
    · rw [hfid.count_eq, List.count_append]
      have hz : ((get_ready_children now heap).2.map
          fun e => e.2.id).count c.id = 0 :=
        List.count_eq_zero_of_not_mem hnotrest
      have h1 : ((get_ready_children now heap).1.map
          SChild.id).count c.id = 1 := by
        have hle := List.nodup_iff_count_le_one.mp hready_nodup c.id
        have hpos : 0 < ((get_ready_children now heap).1.map
            SChild.id).count c.id :=
          List.count_pos_iff.mpr hcid
        omega
      rw [hz, h1]
    · intro e he hide
      rcases hmem e he with hin | hfresh
      · exfalso
        apply hnotrest
        rw [← hide]
        exact List.mem_map.mpr ⟨e, hin, rfl⟩
      · exact hfresh
  · intro c hc hp
    exact system_execute_go_perm_raises input _ _ _ c hc hp

/-- Witness for C3: `system_execute_contract` applied to a one-child
System whose child (interval 10) is due at time 0 and succeeds. -/
theorem system_execute_contract_witness :
    (([("actual", (⟨[]⟩ : StateV))] : StatesB) = [("actual", ⟨[]⟩)]) ∧
    (∀ p ∈ ([((0 : Nat), emptyStates)] : List (Nat × StatesB)),
      p.2 = emptyStates) :=
  have h := (system_execute_contract
    [(0, ⟨0, 0, 0, 10, fun _ => COut.ok⟩)] 0 [("actual", ⟨[]⟩)]).1
    [(10, ⟨0, 0, 1, 10, fun _ => COut.ok⟩)] [("actual", ⟨[]⟩)]
    [(0, emptyStates)]
    (by simp [system_execute, system_execute_go, get_ready_children,
      heapPush, SChild.executeChild, SChild.get_next_execution_time,
      emptyStates])
  ⟨h.1, h.2.2⟩

/-! ## FastRunner (runner.py)

The virtual-time runner keeps an internal `_simulation_time` and drives
one root process.  The root is embedded as an `SChild` (timing fields
plus per-tick outcome); its `get_next_execution_time` and the counter
behaviour of `execute` are the spec-modelled template from above.
`run_for_duration` resets the clock and `_start_time` to 0, re-runs the
root's timing setup and loops `_execute_one_cycle` while the clock is
before `end_time` and `_should_continue_execution` holds.  The loop is
embedded with explicit fuel: `none` means the fuel ran out with the loop
still running, `some (sim, root, raised)` that the loop stopped at clock
`sim` with `raised = true` when an exception from the root's `execute`
propagated out of `run_for_duration` (FastRunner's loop, unlike
StandardRunner's, has no try/except). -/

/-- Modelled from the spec: the missing `initialize_timing`, which
resets the root's timing state — `start_time` to the runner's current
(virtual) time 0 and `execution_count` to 0. -/
def init_timing (root : SChild) : SChild :=
  { root with start_time := 0, execution_count := 0 }

/-- Embeds the `run_for_duration` loop of `FastRunner` with explicit
fuel: while `sim < endT` (clock before `end_time`) and
`sim - 0 ≤ maxDur` (`_should_continue_execution`, with `_start_time` =
0 and no stop request), run `_execute_one_cycle`: if the root's next
execution time is due, execute it once (exceptions propagate,
terminating the run with `raised = true`), else jump the clock forward
to that time. -/
def runLoop (maxDur endT : Int) :
    Nat → Int → SChild → Option (Int × SChild × Bool)
  | 0, _, _ => none
  | fuel + 1, sim, root =>
    if sim < endT ∧ sim - 0 ≤ maxDur then
      if root.get_next_execution_time ≤ sim then
        match SChild.executeChild root emptyStates with
        | (root2, .ok) => runLoop maxDur endT fuel sim root2
        | (root2, _) => some (sim, root2, true)
      else
        runLoop maxDur endT fuel root.get_next_execution_time root
    else
      some (sim, root, false)

/-- Embeds `FastRunner.run_for_duration` halting: some fuel suffices for
the loop (started at clock 0 on the re-initialized root) to stop. -/
def FastRunnerHalts (root : SChild) (endT maxDur : Int) : Prop :=
  ∃ fuel st, runLoop maxDur endT fuel 0 (init_timing root) = some st

/-- Embeds `FastRunner.start`, which unconditionally raises
`NotImplementedError`. -/
def FastRunner_start : Except String Unit :=
  .error "FastRunner uses run_for_duration() instead of start()"

/-- Termination measure of the loop: distance from the clock to
`end_time` plus distance from the root's next due time to one interval
past `end_time`. -/
def fastMeasure (endT sim : Int) (root : SChild) : Nat :=
  (endT - sim).toNat +
    (endT + root.interval_ns - root.get_next_execution_time).toNat

theorem executeChild_ok_next (root : SChild)
    (h : (root.executeChild emptyStates).2 = .ok) :
    (root.executeChild emptyStates).1.get_next_execution_time =
      root.get_next_execution_time + root.interval_ns := by
  unfold SChild.executeChild at h ⊢
  cases hb : root.behavior root.execution_count
  · simp only [hb]
    unfold SChild.get_next_execution_time
    push_cast
    ring
  · rw [hb] at h
    exact absurd h (by simp)
  · rw [hb] at h
    exact absurd h (by simp)

theorem executeChild_interval (root : SChild) (b : StatesB) :
    (root.executeChild b).1.interval_ns = root.interval_ns := by
  unfold SChild.executeChild
  cases root.behavior root.execution_count <;> rfl

theorem runLoop_adequate (maxDur endT : Int) :
    ∀ (fuel : Nat) (sim : Int) (root : SChild),
      1 ≤ root.interval_ns → fastMeasure endT sim root < fuel →
      (runLoop maxDur endT fuel sim root).isSome := by
  intro fuel
  induction fuel with
  | zero =>
    intro sim root _ hm
    exact absurd hm (by omega)
  | succ n ih =>
    intro sim root hi hm
    rw [runLoop]
    by_cases hcond : sim < endT ∧ sim - 0 ≤ maxDur
    · rw [if_pos hcond]
      by_cases hdue : root.get_next_execution_time ≤ sim
      · rw [if_pos hdue]
        rcases hco : SChild.executeChild root emptyStates with ⟨r2, o⟩
        cases o with
        | ok =>
          have hnext : r2.get_next_execution_time =
              root.get_next_execution_time + root.interval_ns := by
            have := executeChild_ok_next root (by rw [hco])
            rwa [hco] at this
          have hint : r2.interval_ns = root.interval_ns := by
            have := executeChild_interval root emptyStates
            rwa [hco] at this
          refine ih sim r2 (by omega) ?_
          unfold fastMeasure at hm ⊢
          rw [hnext, hint]
          have h1 : root.get_next_execution_time ≤ sim := hdue
          have h2 : sim < endT := hcond.1
          omega
        | permissionDenied => simp
        | failed => simp
      · rw [if_neg hdue]
        refine ih root.get_next_execution_time root hi ?_
        unfold fastMeasure at hm ⊢
        have h2 : sim < endT := hcond.1
        omega
    · rw [if_neg hcond]
      simp

theorem runLoop_stop_reason (maxDur endT : Int) :
    ∀ (fuel : Nat) (sim : Int) (root : SChild) (st : Int × SChild × Bool),
      runLoop maxDur endT fuel sim root = some st →
      endT ≤ st.1 ∨ maxDur < st.1 - 0 ∨ st.2.2 = true := by
  intro fuel
  induction fuel with
  | zero =>
    intro sim root st h
    exact absurd h (by simp [runLoop])
  | succ n ih =>
    intro sim root st h
    rw [runLoop] at h
    by_cases hcond : sim < endT ∧ sim - 0 ≤ maxDur
    · rw [if_pos hcond] at h
      by_cases hdue : root.get_next_execution_time ≤ sim
      · rw [if_pos hdue] at h
        rcases hco : SChild.executeChild root emptyStates with ⟨r2, o⟩
        rw [hco] at h
        cases o with
        | ok => exact ih _ _ _ h
        | permissionDenied =>
          simp only [Option.some.injEq] at h
          subst h
          exact Or.inr (Or.inr rfl)
        | failed =>
          simp only [Option.some.injEq] at h
          subst h
          exact Or.inr (Or.inr rfl)
      · rw [if_neg hdue] at h
        exact ih _ _ _ h
    · rw [if_neg hcond] at h
      simp only [Option.some.injEq] at h
      subst h
      simp only [not_and, not_le, not_lt] at hcond
      by_cases hlt : sim < endT
      · exact Or.inr (Or.inl (by have := hcond hlt; omega))
      · exact Or.inl (by omega)

/-! ## Claim C9 -/

/-- C9 (amended): `FastRunner.start()` raises on every call; and for
every root process with a positive execution interval (the spec rejects
non-positive periods at construction) and every duration,
`run_for_duration` halts — the loop stops with the internal clock at or
past `start + duration`, or earlier because the safety ceiling
`max_duration_ns` was exceeded, or because an exception from the root
propagated out of the un-guarded virtual-time loop.  The original
universal halting claim fails at interval zero, which the present
sources never reject. -/
theorem fast_runner_halts (root : SChild) (endT maxDur : Int)
    (hi : 1 ≤ root.interval_ns) :
    FastRunner_start =
      .error "FastRunner uses run_for_duration() instead of start()" ∧
    ∃ fuel sim root2 raised,
      runLoop maxDur endT fuel 0 (init_timing root) =
        some (sim, root2, raised) ∧
      (endT ≤ sim ∨ maxDur < sim - 0 ∨ raised = true) := by
  refine ⟨rfl, ?_⟩
  have hii : 1 ≤ (init_timing root).interval_ns := hi
  have hs := runLoop_adequate maxDur endT
    (fastMeasure endT 0 (init_timing root) + 1) 0 (init_timing root)
    hii (by omega)
  rcases Option.isSome_iff_exists.mp hs with ⟨⟨sim, root2, raised⟩, hst⟩
  have hreason := runLoop_stop_reason maxDur endT _ _ _ _ hst
  exact ⟨_, sim, root2, raised, hst, by simpa using hreason⟩

/-- Witness for C9: `fast_runner_halts` applied to a root with interval
10 ns, duration 100 ns and the default safety ceiling. -/
theorem fast_runner_halts_witness :
    ∃ fuel sim root2 raised,
      runLoop 3600000000000 100 fuel 0
        (init_timing ⟨0, 0, 0, 10, fun _ => COut.ok⟩) =
        some (sim, root2, raised) ∧
      ((100 : Int) ≤ sim ∨ (3600000000000 : Int) < sim - 0 ∨
        raised = true) :=
  (fast_runner_halts ⟨0, 0, 0, 10, fun _ => COut.ok⟩ 100 3600000000000
    (by norm_num)).2

/-- Counterexample for C9 as stated: a root process with
`interval_ns = 0` (accepted by the sources, which place no lower bound
on the field) is due forever at clock 0; the virtual clock never
advances, the safety ceiling (which compares elapsed virtual time) never
trips, and `run_for_duration(1s)` never halts: no amount of fuel makes
the loop stop. -/
theorem fast_runner_nontermination :
    ¬ FastRunnerHalts ⟨0, 0, 0, 0, fun _ => COut.ok⟩
      1000000000 3600000000000 := by
  rintro ⟨fuel, st, hst⟩
  have key : ∀ (n : Nat) (c : Nat),
      runLoop 3600000000000 1000000000 n 0
        ⟨0, 0, c, 0, fun _ => COut.ok⟩ = none := by
    intro n
    induction n with
    | zero => intro c; rfl
    | succ m ih =>
      intro c
      rw [runLoop]
      rw [if_pos (by norm_num)]
      rw [if_pos (by simp [SChild.get_next_execution_time])]
      have hex : SChild.executeChild ⟨0, 0, c, 0, fun _ => COut.ok⟩
          emptyStates =
          (⟨0, 0, c + 1, 0, fun _ => COut.ok⟩, .ok) := by
        simp [SChild.executeChild]
      rw [hex]
      exact ih (c + 1)
  rw [show init_timing ⟨0, 0, 0, 0, fun _ => COut.ok⟩ =
      ⟨0, 0, 0, 0, fun _ => COut.ok⟩ from rfl] at hst
  rw [key fuel 0] at hst
  exact Option.noConfusion hst

/-! ## Heap model of `execute` input immutability (process.py, state.py)

At the value level a pure embedding makes "the input is not mutated"
vacuous, so the mutable-object semantics of Python is modelled
explicitly: bundles live in a heap of addressed cells, `copy.deepcopy`
allocates a fresh cell holding the same value (the `State` values inside
a bundle are frozen pydantic models, so copying the bundle cell captures
the whole mutable surface), and a process-specific `_process` override is
an arbitrary heap transformer constrained exactly by what Python lets it
do with its argument: write through references it was given (its
argument cell) or allocate fresh cells — never touch other pre-existing
objects it holds no reference to. -/

/-- A heap of bundle cells: the allocated contents and the next fresh
address. -/
structure HeapM : Type where
  mem : Nat → Option StatesB
  next : Nat

/-- Writes a cell in place (a dict mutation through a reference). -/
def HeapM.write (h : HeapM) (a : Nat) (v : StatesB) : HeapM :=
  { h with mem := fun x => if x = a then some v else h.mem x }

/-- Allocates a fresh cell holding `v`. -/
def HeapM.alloc (h : HeapM) (v : StatesB) : HeapM × Nat :=
  ({ mem := fun x => if x = h.next then some v else h.mem x,
     next := h.next + 1 }, h.next)

/-- Embeds `copy.deepcopy(states)`: allocate a fresh cell with the same
bundle value. -/
def heapDeepcopy (h : HeapM) (a : Nat) : HeapM × Nat :=
  h.alloc ((h.mem a).getD [])

/-- Embeds a `_process` override: an arbitrary transformation that gets
the address of its argument bundle and returns an updated heap and
either a result address or an exception (`true` = `PermissionError`,
`false` = any other), subject to the reference discipline: it leaves
every pre-existing cell other than its argument untouched and never
frees cells. -/
structure ProcOp : Type where
  run : HeapM → Nat → HeapM × Except Bool Nat
  frame : ∀ h a x, x < h.next → x ≠ a →
    ((run h a).1).mem x = h.mem x
  next_mono : ∀ h a, h.next ≤ ((run h a).1).next

/-- A process tree: the `_process` transformation and the child list of
`Process.execute`. -/
inductive ProcTree : Type
| mk (op : ProcOp) (children : List ProcTree)

mutual

/-- Embeds `Process.execute` on the heap model: deep-copy the input
bundle, then either run `_process` on the copy (re-raising
`PermissionError`, returning the copy on any other exception —
passthrough) or thread the copy through the children. -/
def ProcTree.executeH : ProcTree → HeapM → Nat → HeapM × Except Bool Nat
  | .mk op children, h, a =>
    let hc := heapDeepcopy h a
    match children with
    | [] =>
      match op.run hc.1 hc.2 with
      | (h2, .ok r) => (h2, .ok r)
      | (h2, .error true) => (h2, .error true)
      | (h2, .error false) => (h2, .ok hc.2)
    | c :: rest => execChildrenH (c :: rest) hc.1 hc.2

/-- Embeds the children loop on the heap model: a child's output address
becomes the next child's input; `PermissionError` re-raises; any other
exception keeps the current address. -/
def execChildrenH :
    List ProcTree → HeapM → Nat → HeapM × Except Bool Nat
  | [], h, cur => (h, .ok cur)
  | c :: rest, h, cur =>
    match c.executeH h cur with
    | (h2, .ok out) => execChildrenH rest h2 out
    | (h2, .error true) => (h2, .error true)
    | (h2, .error false) => execChildrenH rest h2 cur

end

mutual

theorem executeH_frame : ∀ (t : ProcTree) (h : HeapM) (a : Nat),
    (∀ x, x < h.next → ((t.executeH h a).1).mem x = h.mem x) ∧
    h.next ≤ (t.executeH h a).1.next
  | .mk op children, h, a => by
    rw [ProcTree.executeH.eq_def]
    match children with
    | [] =>
      simp only
      rcases hr : op.run (heapDeepcopy h a).1 (heapDeepcopy h a).2 with
        ⟨h2, o⟩
      have hfr := op.frame (heapDeepcopy h a).1 (heapDeepcopy h a).2
      have hmono := op.next_mono (heapDeepcopy h a).1 (heapDeepcopy h a).2
      rw [hr] at hfr hmono
      have hfr2 : ∀ x, x < (heapDeepcopy h a).1.next →
          x ≠ (heapDeepcopy h a).2 →
          h2.mem x = ((heapDeepcopy h a).1).mem x := hfr
      have hmono2 : (heapDeepcopy h a).1.next ≤ h2.next := hmono
      have hcopy_mem : ∀ x, x < h.next →
          ((heapDeepcopy h a).1).mem x = h.mem x := by
        intro x hx
        simp only [heapDeepcopy, HeapM.alloc]
        have : x ≠ h.next := by omega
        simp [this]
      have hcopy_next : (heapDeepcopy h a).1.next = h.next + 1 := rfl
      have haddr : (heapDeepcopy h a).2 = h.next := rfl
      have hkey : ∀ x, x < h.next → h2.mem x = h.mem x := by
        intro x hx
        rw [hfr2 x (by omega) (by omega), hcopy_mem x hx]
      match o with
      | .ok r =>
        refine ⟨hkey, ?_⟩
        show h.next ≤ h2.next
        omega
      | .error true =>
        refine ⟨hkey, ?_⟩
        show h.next ≤ h2.next
        omega
      | .error false =>
        refine ⟨hkey, ?_⟩
        show h.next ≤ h2.next
        omega
    | c :: rest =>
      simp only
      have hlist := execChildrenH_frame (c :: rest) (heapDeepcopy h a).1
        (heapDeepcopy h a).2
      have hcopy_mem : ∀ x, x < h.next →
          ((heapDeepcopy h a).1).mem x = h.mem x := by
        intro x hx
        simp only [heapDeepcopy, HeapM.alloc]
        have : x ≠ h.next := by omega
        simp [this]
      have hcopy_next : (heapDeepcopy h a).1.next = h.next + 1 := rfl
      refine ⟨?_, ?_⟩
      · intro x hx
        rw [hlist.1 x (by omega), hcopy_mem x hx]
      · have := hlist.2
        omega

theorem execChildrenH_frame :
    ∀ (l : List ProcTree) (h : HeapM) (cur : Nat),
      (∀ x, x < h.next → ((execChildrenH l h cur).1).mem x = h.mem x) ∧
      h.next ≤ (execChildrenH l h cur).1.next
  | [], h, cur => by
    rw [execChildrenH]
    exact ⟨fun x _ => rfl, le_refl _⟩
  | c :: rest, h, cur => by
    rw [execChildrenH]
    rcases hc : c.executeH h cur with ⟨h2, o⟩
    have hchild := executeH_frame c h cur
    rw [hc] at hchild
    have hcm : ∀ x, x < h.next → h2.mem x = h.mem x := hchild.1
    have hcn : h.next ≤ h2.next := hchild.2
    match o with
    | .ok out =>
      have hrest := execChildrenH_frame rest h2 out
      refine ⟨?_, ?_⟩
      · intro x hx
        show (execChildrenH rest h2 out).1.mem x = h.mem x
        rw [hrest.1 x (by omega), hcm x hx]
      · show h.next ≤ (execChildrenH rest h2 out).1.next
        have := hrest.2
        omega
    | .error true =>
      exact ⟨fun x hx => hcm x hx, hcn⟩
    | .error false =>
      have hrest := execChildrenH_frame rest h2 cur
      refine ⟨?_, ?_⟩
      · intro x hx
        show (execChildrenH rest h2 cur).1.mem x = h.mem x
        rw [hrest.1 x (by omega), hcm x hx]
      · show h.next ≤ (execChildrenH rest h2 cur).1.next
        have := hrest.2
        omega

end

/-! ## Claim C10 -/

/-- C10: `execute` never mutates its argument: for every process tree
(arbitrary `_process` overrides respecting the reference discipline,
arbitrary children) and every allocated input bundle cell, the cell
holds exactly the same bundle value — the same role names mapped to the
same states — after the call as before, because `execute` deep-copies
the input into a fresh cell before any transformation runs. -/
theorem execute_preserves_input (t : ProcTree) (h : HeapM) (a : Nat)
    (ha : a < h.next) :
    ((t.executeH h a).1).mem a = h.mem a :=
  (executeH_frame t h a).1 a ha

/-- Witness for C10: `execute_preserves_input` on a leaf process whose
transformation overwrites its argument cell, run on a one-cell heap. -/
theorem execute_preserves_input_witness :
    (((ProcTree.mk
        ⟨fun h a => (h.write a [("x", ⟨[]⟩)], .ok a),
         by
           intro h a x _hx hne
           simp [HeapM.write, hne],
         by
           intro h _a
           exact le_refl _⟩ []).executeH
      ⟨fun x => if x = 0 then some [("actual", ⟨[]⟩)] else none, 1⟩
      0).1).mem 0 =
    (⟨fun x => if x = 0 then some [("actual", ⟨[]⟩)] else none,
      1⟩ : HeapM).mem 0 :=
  execute_preserves_input _ _ 0 (by norm_num)

end Aifand
